import Mathlib

/-!
Verification of the news-eco-maroc aggregation pipeline (src/app.py).

The Python source is shallowly embedded: pure helpers become Lean
functions on `String` / `List Char`; network effects (feedparser,
requests) are passed in as explicit oracle arguments; Python `None`
becomes `Option`; datetimes are modelled as wall-clock minutes paired
with a UTC offset in minutes. `Africa/Casablanca` is modelled as the
fixed offset UTC+1 (the offset actually in force at the concrete
instants used below). `Char.toLower` models Python `str.lower` (it
agrees on ASCII; all case-varying characters used here are ASCII).
-/

namespace NewsEco

/-! ### Generic string helpers -/

/-- Words of a character list: maximal groups of non-whitespace characters,
as produced by Python `str.split()` with no argument. `cur` holds the
(reversed) current group. -/
def wordsAcc (cur : List Char) : List Char → List String
  | [] => if cur.isEmpty then [] else [String.mk cur.reverse]
  | c :: cs =>
    if c.isWhitespace then
      if cur.isEmpty then wordsAcc [] cs
      else String.mk cur.reverse :: wordsAcc [] cs
    else wordsAcc (c :: cur) cs

/-- Python `s.split()`. -/
def wordsOf (s : String) : List String := wordsAcc [] s.data

/-- Python `sep.join(parts)`. -/
def joinSep (sep : String) : List String → String
  | [] => ""
  | [x] => x
  | x :: xs => x ++ sep ++ joinSep sep (xs)

/-- Python `s.strip()` on a character list. -/
def stripChars (cs : List Char) : List Char :=
  ((cs.dropWhile Char.isWhitespace).reverse.dropWhile Char.isWhitespace).reverse

/-- Python `s.strip()`. -/
def stripStr (s : String) : String := String.mk (stripChars s.data)

/-- One step of `re.sub(r"\s+", " ", txt)`: the flag records whether the
previous character was part of a whitespace run already replaced. -/
def collapseAux (prevWs : Bool) : List Char → List Char
  | [] => []
  | c :: cs =>
    if c.isWhitespace then
      if prevWs then collapseAux true cs else ' ' :: collapseAux true cs
    else c :: collapseAux false cs

/-- Python `re.sub(r"\s+", " ", txt)`. -/
def collapseStr (s : String) : String := String.mk (collapseAux false s.data)

/-- Python `s.lower()` (ASCII model). -/
def toLowerStr (s : String) : String := String.mk (s.data.map Char.toLower)

/-- Python `needle in hay` on strings: substring containment. -/
def substrB (needle hay : String) : Bool :=
  hay.data.tails.any (fun t => needle.data.isPrefixOf t)

/-- Lexicographic strict comparison of character lists by code point,
the order Python uses on `str`. -/
def strLtB : List Char → List Char → Bool
  | [], [] => false
  | [], _ :: _ => true
  | _ :: _, [] => false
  | a :: as, b :: bs => if a < b then true else if b < a then false else strLtB as bs

/-- Python `a >= b` on strings. -/
def strGeB (a b : String) : Bool := !(strLtB a.data b.data)

/-! ### clean_html (src/app.py:38-42)

`BeautifulSoup(text, "html.parser")` followed by
`soup.get_text(" ", strip=True)`.  The parser is modelled as a scanner
that collects the text chunks lying outside `<...>` tags (an
unterminated tag swallows the rest of the input); `get_text` strips
each chunk, drops the ones that become empty and joins the rest with a
single space.  Whitespace interior to a chunk is left untouched, which
is exactly what `get_text` does. -/

/-- Text chunks outside tags. `inTag` is true between `<` and `>`;
`cur` is the (reversed) current text chunk. -/
def segAux (inTag : Bool) (cur : List Char) : List Char → List String
  | [] =>
    if inTag then []
    else if cur.isEmpty then [] else [String.mk cur.reverse]
  | c :: cs =>
    if inTag then
      if c = '>' then segAux false [] cs else segAux true cur cs
    else
      if c = '<' then
        if cur.isEmpty then segAux true [] cs
        else String.mk cur.reverse :: segAux true [] cs
      else segAux false (c :: cur) cs

/-- Text chunks of an HTML string. -/
def htmlSegments (s : String) : List String := segAux false [] s.data

/-- src/app.py:38-42 `clean_html`. -/
def clean_html (text : String) : String :=
  if text = "" then ""
  else joinSep " " (((htmlSegments text).map stripStr).filter (fun p => p ≠ ""))

/-! ### simple_summarize (src/app.py:44-66) -/

/-- `re.split(r"(?<=[\.\!\?])\s+", txt)`: split where a whitespace run
follows `.`, `!` or `?`.  State: `none` while consuming the whitespace
run that separates two sentences, otherwise the (reversed) current
sentence together with whether its last character is a sentence
terminator. -/
def sentencesAux : Option (List Char × Bool) → List Char → List String
  | none, [] => [""]
  | some (cur, _), [] => [String.mk cur.reverse]
  | none, c :: cs =>
    if c.isWhitespace then sentencesAux none cs
    else sentencesAux (some ([c], c = '.' ∨ c = '!' ∨ c = '?')) cs
  | some (cur, pe), c :: cs =>
    if c.isWhitespace && pe then String.mk cur.reverse :: sentencesAux none cs
    else sentencesAux (some (c :: cur, c = '.' ∨ c = '!' ∨ c = '?')) cs

/-- Sentence split of src/app.py:49. -/
def splitSentences (s : String) : List String := sentencesAux (some ([], false)) s.data

/-- The sentence-picking loop of src/app.py:50-61. Returns the picked
sentences and the accumulated word count. -/
def pickLoop (maxS maxW : Nat) (picked : List String) (wc : Nat) :
    List String → List String × Nat
  | [] => (picked, wc)
  | s :: rest =>
    let w := (wordsOf s).length
    if w = 0 then pickLoop maxS maxW picked wc rest
    else if wc + w > maxW ∧ ¬picked.isEmpty then (picked, wc)
    else
      let picked' := picked ++ [s]
      let wc' := wc + w
      if picked'.length ≥ maxS then (picked', wc') else pickLoop maxS maxW picked' wc' rest

/-- src/app.py:45-46: `clean_html` then whitespace collapse then strip. -/
def normalizedText (text : String) : String := stripStr (collapseStr (clean_html text))

/-- src/app.py:62: the joined summary before the final truncation check. -/
def summarizeJoined (text : String) (maxS maxW : Nat) : String :=
  joinSep " " (pickLoop maxS maxW [] 0 (splitSentences (normalizedText text))).1

/-- src/app.py:44-66 `simple_summarize`. -/
def simple_summarize (text : String) (max_sentences : Nat := 2) (max_words : Nat := 50) :
    String :=
  if normalizedText text = "" then ""
  else
    let summary := summarizeJoined text max_sentences max_words
    let ws := wordsOf summary
    if ws.length > max_words then joinSep " " (ws.take max_words) ++ " …"
    else summary

/-! ### Datetimes and the day filter (src/app.py:13, 68-86)

A timezone-aware datetime is its wall-clock time in minutes since the
epoch together with the UTC offset (in minutes) of its `tzinfo`.
Seconds are dropped: neither `date()` nor `strftime("%H:%M")` looks at
them. -/

structure AwareDT where
  wall : Int
  ofs : Int
deriving DecidableEq

/-- `tz.gettz("Africa/Casablanca")` modelled as the fixed offset UTC+1. -/
def TIMEZONE_ofs : Int := 60

/-- Python `dt.astimezone(tz)` for a target offset. -/
def astimezone (dt : AwareDT) (ofs : Int) : AwareDT :=
  ⟨dt.wall - dt.ofs + ofs, ofs⟩

/-- Python `dt.date()` as a day number (floor of the wall clock). -/
def dateOf (dt : AwareDT) : Int := dt.wall.fdiv 1440

/-- src/app.py:84-86 `same_day`. -/
def same_day (dt : AwareDT) (target_day : Int) : Bool :=
  dateOf (astimezone dt TIMEZONE_ofs) == target_day

/-- The spec's notion for claim C6: the calendar date of the timestamp
after conversion to the fixed locale timezone. -/
def localCalendarDate (dt : AwareDT) : Int := dateOf (astimezone dt TIMEZONE_ofs)

/-- The calendar date of the instant in UTC, before timezone conversion. -/
def utcCalendarDate (dt : AwareDT) : Int := (dt.wall - dt.ofs).fdiv 1440

/-- Zero-padded two-digit decimal rendering. -/
def twoDigit (n : Nat) : String := if n < 10 then "0" ++ toString n else toString n

/-- Python `dt.strftime("%H:%M")`. -/
def strftimeHM (dt : AwareDT) : String :=
  let m := (dt.wall.emod 1440).toNat
  twoDigit (m / 60) ++ ":" ++ twoDigit (m % 60)

/-- Day number of a proleptic-Gregorian calendar date, with day 0 at
1970-01-01 (used only to name concrete dates in the theorems). -/
def daysFromCivil (y m d : Int) : Int :=
  let y' := if m ≤ 2 then y - 1 else y
  let era := y'.fdiv 400
  let yoe := y' - era * 400
  let doy := (153 * (m + (if m > 2 then -3 else 9)) + 2).fdiv 5 + d - 1
  let doe := yoe * 365 + yoe.fdiv 4 - yoe.fdiv 100 + doy
  era * 146097 + doe - 719468

/-! ### Feed entries and the timestamp resolver (src/app.py:68-82)

A feedparser entry field `*_parsed` is either absent (`none`), present
with value `None` (`some none`), or present with a `struct_time`
(`some (some w)` where `w` is the wall-clock minutes encoded by
`t[:6]`).  `hasattr`/`in` agree on `FeedParserDict`, so the two lookups
of the source collapse to one. -/

structure Entry where
  title : Option String
  link : Option String
  summary : Option String
  description : Option String
  published_parsed : Option (Option Int)
  updated_parsed : Option (Option Int)
  created_parsed : Option (Option Int)
deriving DecidableEq

/-- The `t` accumulator of the loop at src/app.py:70-78: an absent
field leaves `t` unchanged, a present field overwrites it, and a
truthy value breaks out of the loop. -/
def timeLoop (t : Option Int) : List (Option (Option Int)) → Option Int
  | [] => t
  | f :: fs =>
    match f with
    | none => timeLoop t fs
    | some none => timeLoop none fs
    | some (some w) => some w

/-- src/app.py:68-82 `parse_entry_datetime`: `datetime(*t[:6])` with
`tzinfo` replaced by the fixed timezone, or `None`. -/
def parse_entry_datetime (e : Entry) : Option AwareDT :=
  (timeLoop none [e.published_parsed, e.updated_parsed, e.created_parsed]).map
    (fun w => ⟨w, TIMEZONE_ofs⟩)

/-- src/app.py:152 `parse_entry_datetime(entry) or datetime.now(TIMEZONE)`. -/
def resolveDt (now : AwareDT) (e : Entry) : AwareDT :=
  (parse_entry_datetime e).getD now

/-! ### Configuration constants (src/app.py:15-33, 160) -/

def RSS_FEEDS : List String := [
  "https://www.challenge.ma/feed",
  "https://www.ecoactu.ma/feed",
  "https://medias24.com/feed",
  "https://www.lavieeco.com/feed",
  "https://www.aujourdhui.ma/feed",
  "https://ledesk.ma/feed",
  "https://fr.le360.ma/economie/feed",
  "https://ar.le360.ma/economie/feed",
  "https://www.hespress.com/economie/feed",
  "https://lematin.ma/rss"]

def ECON_KEYWORDS : List String := [
  "économie", "economy", "business", "finance", "bourse", "marché",
  "banque", "bank", "investissement", "investment", "entreprise", "PME",
  "inflation", "croissance", "PIB", "export", "import", "commerce",
  "industrie", "énergie", "oil", "gaz", "mines", "telecom", "tourisme"]

/-- The hard-coded substring list of src/app.py:160. -/
def FILTERED_DOMAINS : List String := ["telquel", "lematin", "le360", "hespress"]

/-! ### NewsItem records and the per-entry pipeline (src/app.py:143-168) -/

structure Item where
  source : String
  title : String
  summary : String
  time : String
  link : String
deriving DecidableEq

/-- src/app.py:157 `entry.get("summary") or entry.get("description") or ""`:
Python `or` takes the first truthy (non-empty, non-None) string. -/
def orStr (o : Option String) (alt : String) : String :=
  match o with
  | some s => if s = "" then alt else s
  | none => alt

def entryDesc (e : Entry) : String := orStr e.summary (orStr e.description "")

/-- Whether the feed url is subject to the relevance filter (src/app.py:160). -/
def filteredDomain (url : String) : Bool :=
  FILTERED_DOMAINS.any (fun d => substrB d url)

/-- Whether some economic keyword occurs in the haystack (src/app.py:160). -/
def anyKeyword (haystack : String) : Bool :=
  ECON_KEYWORDS.any (fun k => substrB k haystack)

/-- The body of the per-entry loop of src/app.py:151-168: `none` when the
entry is skipped by `continue`, otherwise the appended item. -/
def entryToItem (source_title url : String) (now : AwareDT) (target_day : Int)
    (e : Entry) : Option Item :=
  let dt := resolveDt now e
  if ¬same_day dt target_day then none
  else
    let title := clean_html (e.title.getD "(sans titre)")
    let link := e.link.getD ""
    let desc := entryDesc e
    let summary := simple_summarize desc
    let haystack := toLowerStr (title ++ " " ++ desc)
    if filteredDomain url && !anyKeyword haystack then none
    else some ⟨source_title, title,
      (if summary = "" then "(Résumé non disponible)" else summary),
      strftimeHM dt, link⟩

/-- A parsed feed: `feed.feed.get("title", url)` needs the optional
declared title; `feed.entries` is the entry list. -/
structure Feed where
  title : Option String
  entries : List Entry

/-- The feed half of src/app.py:145-168. The `parse` oracle stands for
`feedparser.parse`; a raised exception is `Except.error` and makes the
loop `continue` to the next url. -/
def feedItems (parse : String → Except Unit Feed) (now : AwareDT) (target_day : Int) :
    List Item :=
  RSS_FEEDS.flatMap (fun url =>
    match parse url with
    | .error _ => []
    | .ok feed => feed.entries.filterMap (entryToItem (feed.title.getD url) url now target_day))

/-! ### HTML adapters (src/app.py:89-140)

A heading tag carries its text and the result of `find("a")`: absent,
or an anchor whose `href` attribute may itself be absent
(`get("href", "")` defaults to the empty string).  An article carries
the results of the `find` calls used by the adapters.  The page oracle
is `Except.error` when `requests.get`/`BeautifulSoup` raises, and the
selected article list otherwise. -/

structure Heading where
  text : String
  anchor : Option (Option String)
deriving DecidableEq

structure BArticle where
  h3 : Option Heading
  p : Option String
deriving DecidableEq

structure LArticle where
  h2 : Option Heading
  h3 : Option Heading
  p : Option String
deriving DecidableEq

/-- The loop of src/app.py:96-110 with its accumulated `items`.  When a
heading has no anchor, `title_tag.find("a").get("href", "")` raises
`AttributeError`; the `except` at src/app.py:111 catches it, so the
function exits with the items accumulated so far. -/
def bLoop (acc : List Item) : List BArticle → List Item
  | [] => acc
  | a :: rest =>
    match a.h3 with
    | none => bLoop acc rest
    | some h =>
      match h.anchor with
      | none => acc
      | some href =>
        bLoop (acc ++ [⟨"Boursenews", clean_html h.text,
          (match a.p with | some p => clean_html p | none => ""),
          "--:--", href.getD ""⟩]) rest

/-- src/app.py:89-113 `fetch_boursenews_html` (the unused `target_day`
parameter of the source is dropped). -/
def fetch_boursenews_html (page : Except Unit (List BArticle)) : List Item :=
  match page with
  | .error _ => []
  | .ok arts => bLoop [] arts

/-- Whether processing this article raises `AttributeError` at
src/app.py:101. -/
def bRaises (a : BArticle) : Bool :=
  match a.h3 with
  | none => false
  | some h => h.anchor.isNone

/-- Whether the loop over the page's articles raises. -/
def bRaised (arts : List BArticle) : Bool := arts.any bRaises

/-- The per-article extraction of src/app.py:122-137, which never raises. -/
def lItem (a : LArticle) : Option Item :=
  match a.h2 <|> a.h3 with
  | none => none
  | some h =>
    some ⟨"LeBoursier", clean_html h.text,
      (match a.p with | some p => clean_html p | none => ""),
      "--:--", (match h.anchor with | some href => href.getD "" | none => "")⟩

/-- src/app.py:115-140 `fetch_leboursier_html`. -/
def fetch_leboursier_html (page : Except Unit (List LArticle)) : List Item :=
  match page with
  | .error _ => []
  | .ok arts => arts.filterMap lItem

/-! ### Deduplication and the aggregator (src/app.py:143-179) -/

/-- The dedup key of src/app.py:174. -/
def keyOf (it : Item) : String × String := (it.title, it.source)

/-- The loop of src/app.py:173-178 (`seen` modelled as the list of
inserted keys). -/
def dedupLoop (seen : List (String × String)) (acc : List Item) :
    List Item → List Item
  | [] => acc
  | it :: rest =>
    if keyOf it ∈ seen then dedupLoop seen acc rest
    else dedupLoop (keyOf it :: seen) (acc ++ [it]) rest

/-- src/app.py:171-179. -/
def dedup (items : List Item) : List Item := dedupLoop [] [] items

/-- The concatenation of all adapters' contributions
(src/app.py:144-170, the `items` list before dedup). -/
def allCandidates (parse : String → Except Unit Feed)
    (bpage : Except Unit (List BArticle)) (lpage : Except Unit (List LArticle))
    (now : AwareDT) (target_day : Int) : List Item :=
  feedItems parse now target_day
    ++ fetch_boursenews_html bpage ++ fetch_leboursier_html lpage

/-- src/app.py:143-179 `fetch_news_for_day`. -/
def fetch_news_for_day (parse : String → Except Unit Feed)
    (bpage : Except Unit (List BArticle)) (lpage : Except Unit (List LArticle))
    (now : AwareDT) (target_day : Int) : List Item :=
  dedup (allCandidates parse bpage lpage now target_day)

/-! ### CSV export (src/app.py:181-187)

`csv.DictWriter(output, fieldnames=[...])` with the default `excel`
dialect: delimiter `,`, quote char `"`, `QUOTE_MINIMAL` (a field is
quoted iff it contains the delimiter, the quote char or a line
terminator character), quotes escaped by doubling, rows terminated by
`"\r\n"`. -/

def CSV_HEADER : List String := ["source", "title", "summary", "time", "link"]

def itemFields (r : Item) : List String := [r.source, r.title, r.summary, r.time, r.link]

/-- QUOTE_MINIMAL test. -/
def needsQuote (f : String) : Bool :=
  f.data.any (fun c => c = ',' || c = '"' || c = '\r' || c = '\n')

/-- Double every quote char. -/
def escapeQuotes (cs : List Char) : List Char :=
  cs.flatMap (fun c => if c = '"' then ['"', '"'] else [c])

def encodeField (f : String) : String :=
  if needsQuote f then "\"" ++ String.mk (escapeQuotes f.data) ++ "\"" else f

def encodeRow (fs : List String) : String :=
  joinSep "," (fs.map encodeField) ++ "\r\n"

def strConcat : List String → String
  | [] => ""
  | s :: ss => s ++ strConcat ss

/-- src/app.py:181-187 `export_csv`. -/
def export_csv (rows : List Item) : String :=
  encodeRow CSV_HEADER ++ strConcat (rows.map (fun r => encodeRow (itemFields r)))

/-! ### A standard CSV decoder

An RFC-4180-style reader (delimiter `,`, quote `"`, doubled quotes,
`"\r\n"` row terminators), written as a deterministic character-fold
state machine so that decoding is executable and inductive. -/

inductive CsvMode
  | norm
  | quoted
  | quoteSeen
  | cr
deriving DecidableEq

structure CsvState where
  rows : List (List String)
  curRow : List String
  curField : List Char
  mode : CsvMode
deriving DecidableEq

def csvStep (st : CsvState) (c : Char) : CsvState :=
  match st.mode with
  | .norm =>
    if c = ',' then ⟨st.rows, st.curRow ++ [String.mk st.curField], [], .norm⟩
    else if c = '"' then
      if st.curField.isEmpty then ⟨st.rows, st.curRow, [], .quoted⟩
      else ⟨st.rows, st.curRow, st.curField ++ [c], .norm⟩
    else if c = '\r' then ⟨st.rows, st.curRow ++ [String.mk st.curField], [], .cr⟩
    else if c = '\n' then ⟨st.rows ++ [st.curRow ++ [String.mk st.curField]], [], [], .norm⟩
    else ⟨st.rows, st.curRow, st.curField ++ [c], .norm⟩
  | .quoted =>
    if c = '"' then ⟨st.rows, st.curRow, st.curField, .quoteSeen⟩
    else ⟨st.rows, st.curRow, st.curField ++ [c], .quoted⟩
  | .quoteSeen =>
    if c = '"' then ⟨st.rows, st.curRow, st.curField ++ [c], .quoted⟩
    else if c = ',' then ⟨st.rows, st.curRow ++ [String.mk st.curField], [], .norm⟩
    else if c = '\r' then ⟨st.rows, st.curRow ++ [String.mk st.curField], [], .cr⟩
    else if c = '\n' then ⟨st.rows ++ [st.curRow ++ [String.mk st.curField]], [], [], .norm⟩
    else ⟨st.rows, st.curRow, st.curField ++ [c], .norm⟩
  | .cr =>
    if c = '\n' then ⟨st.rows ++ [st.curRow], [], [], .norm⟩
    else ⟨st.rows ++ [st.curRow], [], [c], .norm⟩

def csvInit : CsvState := ⟨[], [], [], .norm⟩

/-- Flush the final state: a trailing unterminated record is emitted. -/
def csvFinish (st : CsvState) : List (List String) :=
  if st.mode = .norm ∧ st.curRow.isEmpty ∧ st.curField.isEmpty then st.rows
  else st.rows ++ [st.curRow ++ [String.mk st.curField]]

/-- Decode a CSV document into its rows of fields. -/
def decodeCsv (s : String) : List (List String) :=
  csvFinish (s.data.foldl csvStep csvInit)

/-! ## Helper lemmas about words and joining -/

theorem string_mk_data (s : String) : String.mk s.data = s := rfl

theorem wordsAcc_append_space (cs : List Char) :
    ∀ (cur : List Char) (ys : List Char),
      wordsAcc cur (cs ++ ' ' :: ys) = wordsAcc cur cs ++ wordsAcc [] ys := by
  induction cs with
  | nil =>
    intro cur ys
    simp only [List.nil_append, wordsAcc]
    by_cases h : cur.isEmpty <;> simp [h, wordsAcc]
  | cons c cs ih =>
    intro cur ys
    simp only [List.cons_append, wordsAcc]
    by_cases hw : c.isWhitespace
    · by_cases h : cur.isEmpty <;> simp [hw, h, ih]
    · simp [hw, ih]

theorem wordsAcc_wellformed (cs : List Char) :
    ∀ (cur : List Char), (∀ c ∈ cur, ¬c.isWhitespace) →
      ∀ w ∈ wordsAcc cur cs, w ≠ "" ∧ ∀ c ∈ w.data, ¬c.isWhitespace := by
  induction cs with
  | nil =>
    intro cur hcur w hw
    cases cur with
    | nil => simp [wordsAcc] at hw
    | cons a as =>
      simp only [wordsAcc, List.isEmpty_cons, if_false, Bool.false_eq_true,
        List.mem_singleton] at hw
      subst hw
      refine ⟨by simp [String.ext_iff], ?_⟩
      intro c hc
      refine hcur c ?_
      rcases (by simpa using hc : c ∈ as ∨ c = a) with h' | h'
      · exact List.mem_cons_of_mem _ h'
      · exact h' ▸ List.mem_cons_self _ _
  | cons c cs ih =>
    intro cur hcur w hw
    simp only [wordsAcc] at hw
    by_cases hws : c.isWhitespace
    · cases cur with
      | nil =>
        simp only [hws, List.isEmpty_nil, if_true] at hw
        exact ih [] (by simp) w hw
      | cons a as =>
        simp only [hws, List.isEmpty_cons, if_true, if_false, Bool.false_eq_true,
          List.mem_cons] at hw
        rcases hw with hw | hw
        · subst hw
          refine ⟨by simp [String.ext_iff], ?_⟩
          intro b hb
          refine hcur b ?_
          rcases (by simpa using hb : b ∈ as ∨ b = a) with h' | h'
          · exact List.mem_cons_of_mem _ h'
          · exact h' ▸ List.mem_cons_self _ _
        · exact ih [] (by simp) w hw
    · simp only [hws, if_false] at hw
      refine ih (c :: cur) ?_ w hw
      intro a ha
      rcases List.mem_cons.mp ha with rfl | ha
      · exact hws
      · exact hcur a ha

theorem wordsAcc_all_plain (ts : List Char) :
    ∀ (cur : List Char), (∀ c ∈ ts, ¬c.isWhitespace) → (cur ≠ [] ∨ ts ≠ []) →
      wordsAcc cur ts = [String.mk (cur.reverse ++ ts)] := by
  induction ts with
  | nil =>
    intro cur _ hne
    rcases hne with hne | hne
    · simp [wordsAcc, List.isEmpty_iff, hne]
    · exact absurd rfl hne
  | cons c ts ih =>
    intro cur hplain _
    have hc : ¬c.isWhitespace := hplain c (List.mem_cons_self _ _)
    simp only [wordsAcc, hc, if_false]
    rw [ih (c :: cur) (fun a ha => hplain a (List.mem_cons_of_mem _ ha)) (Or.inl (by simp))]
    simp

theorem wordsOf_joinSep (ts : List String)
    (h : ∀ w ∈ ts, w ≠ "" ∧ ∀ c ∈ w.data, ¬c.isWhitespace) :
    wordsOf (joinSep " " ts) = ts := by
  induction ts with
  | nil => rfl
  | cons x ts ih =>
    rcases h x (List.mem_cons_self _ _) with ⟨hx, hxp⟩
    have hxd : x.data ≠ [] := by
      intro habs
      exact hx (by rw [← string_mk_data x, habs])
    have h1 : wordsAcc [] x.data = [x] := by
      rw [wordsAcc_all_plain x.data [] hxp (Or.inr hxd)]
      simp only [List.reverse_nil, List.nil_append, string_mk_data]
    cases ts with
    | nil => exact h1
    | cons y ts' =>
      have hdata : (joinSep " " (x :: y :: ts')).data =
          x.data ++ ' ' :: (joinSep " " (y :: ts')).data := by
        show (x ++ " " ++ joinSep " " (y :: ts')).data = _
        simp [String.data_append]
      show wordsAcc [] (joinSep " " (x :: y :: ts')).data = x :: y :: ts'
      rw [hdata, wordsAcc_append_space]
      have h2 : wordsAcc [] (joinSep " " (y :: ts')).data = y :: ts' :=
        ih (fun w hw => h w (List.mem_cons_of_mem _ hw))
      rw [h1, h2, List.singleton_append]

theorem wordsOf_wellformed (s : String) :
    ∀ w ∈ wordsOf s, w ≠ "" ∧ ∀ c ∈ w.data, ¬c.isWhitespace :=
  wordsAcc_wellformed s.data [] (by simp)

/-- C3: for budgets of at least one sentence and one word, the summary
returned by `simple_summarize` has word count at most `max_words`,
except in the hard-truncation case, where the result is exactly the
first `max_words` words of the assembled summary followed by one
ellipsis token, hence `max_words + 1` whitespace-separated tokens with
the ellipsis last. -/
theorem simple_summarize_word_budget (text : String) (maxS maxW : Nat)
    (hs : 1 ≤ maxS) (hw : 1 ≤ maxW) :
    (wordsOf (simple_summarize text maxS maxW)).length ≤ maxW ∨
    (wordsOf (simple_summarize text maxS maxW) =
        (wordsOf (summarizeJoined text maxS maxW)).take maxW ++ ["…"] ∧
      (wordsOf (simple_summarize text maxS maxW)).length = maxW + 1 ∧
      (wordsOf (simple_summarize text maxS maxW)).getLast? = some "…") := by
  unfold simple_summarize
  by_cases h0 : normalizedText text = ""
  · left
    simp only [h0, if_true]
    show (wordsAcc [] [] : List String).length ≤ maxW
    simp [wordsAcc]
  · simp only [h0, if_false]
    by_cases hlen : (wordsOf (summarizeJoined text maxS maxW)).length > maxW
    · right
      simp only [hlen, if_true]
      have htake : ∀ w ∈ (wordsOf (summarizeJoined text maxS maxW)).take maxW,
          w ≠ "" ∧ ∀ c ∈ w.data, ¬c.isWhitespace := by
        intro w hw'
        exact wordsOf_wellformed _ w (List.mem_of_mem_take hw')
      have hdata :
          (joinSep " " ((wordsOf (summarizeJoined text maxS maxW)).take maxW) ++ " …").data =
          (joinSep " " ((wordsOf (summarizeJoined text maxS maxW)).take maxW)).data
            ++ ' ' :: ['…'] := by
        rw [String.data_append]
      have hmain :
          wordsOf (joinSep " " ((wordsOf (summarizeJoined text maxS maxW)).take maxW) ++ " …") =
          (wordsOf (summarizeJoined text maxS maxW)).take maxW ++ ["…"] := by
        show wordsAcc [] _ = _
        rw [hdata, wordsAcc_append_space]
        have h1 : wordsAcc []
            (joinSep " " ((wordsOf (summarizeJoined text maxS maxW)).take maxW)).data =
            (wordsOf (summarizeJoined text maxS maxW)).take maxW :=
          wordsOf_joinSep _ htake
        have h2 : wordsAcc [] ['…'] = ["…"] := rfl
        rw [h1, h2]
      refine ⟨hmain, ?_, ?_⟩
      · rw [hmain]
        simp only [List.length_append, List.length_take, List.length_singleton]
        omega
      · rw [hmain]
        simp
    · left
      simp only [hlen, if_false]
      omega

/-- C3 witness: the theorem applied at a text whose single long first
sentence forces hard truncation with budget 3. -/
theorem simple_summarize_word_budget_witness :
    (1 ≤ 2 ∧ 1 ≤ 3) ∧
    ((wordsOf (simple_summarize "w1 w2 w3 w4 w5 w6. tail." 2 3)).length ≤ 3 ∨
    (wordsOf (simple_summarize "w1 w2 w3 w4 w5 w6. tail." 2 3) =
        (wordsOf (summarizeJoined "w1 w2 w3 w4 w5 w6. tail." 2 3)).take 3 ++ ["…"] ∧
      (wordsOf (simple_summarize "w1 w2 w3 w4 w5 w6. tail." 2 3)).length = 3 + 1 ∧
      (wordsOf (simple_summarize "w1 w2 w3 w4 w5 w6. tail." 2 3)).getLast? = some "…")) :=
  ⟨⟨by decide, by decide⟩,
    simple_summarize_word_budget "w1 w2 w3 w4 w5 w6. tail." 2 3 (by decide) (by decide)⟩

/-! ## Helper lemmas about deduplication -/

/-- Accumulator-free reformulation of `dedupLoop`. -/
def dedupAux (seen : List (String × String)) : List Item → List Item
  | [] => []
  | it :: rest =>
    if keyOf it ∈ seen then dedupAux seen rest
    else it :: dedupAux (keyOf it :: seen) rest

theorem dedupLoop_eq_aux (l : List Item) :
    ∀ seen acc, dedupLoop seen acc l = acc ++ dedupAux seen l := by
  induction l with
  | nil => intro seen acc; simp [dedupLoop, dedupAux]
  | cons it rest ih =>
    intro seen acc
    by_cases h : keyOf it ∈ seen
    · simp [dedupLoop, dedupAux, h, ih]
    · simp [dedupLoop, dedupAux, h, ih]

theorem dedupAux_sublist (l : List Item) :
    ∀ seen, (dedupAux seen l).Sublist l := by
  induction l with
  | nil => intro seen; simp [dedupAux]
  | cons it rest ih =>
    intro seen
    by_cases h : keyOf it ∈ seen
    · simp only [dedupAux, h, if_true]
      exact (ih seen).cons it
    · simp only [dedupAux, h, if_false]
      exact (ih (keyOf it :: seen)).cons₂ it

theorem dedupAux_filter (l : List Item) :
    ∀ seen (k : String × String),
      (dedupAux seen l).filter (fun x => keyOf x == k) =
        if k ∈ seen then [] else (l.find? (fun x => keyOf x == k)).toList := by
  induction l with
  | nil =>
    intro seen k
    by_cases h : k ∈ seen <;> simp [dedupAux, h]
  | cons it rest ih =>
    intro seen k
    by_cases hit : keyOf it ∈ seen
    · simp only [dedupAux, hit, if_true]
      rw [ih seen k]
      by_cases hk : keyOf it = k
      · subst hk
        simp [hit, List.find?]
      · by_cases hks : k ∈ seen
        · simp [hks, List.find?, hk]
        · simp only [hks, if_false, List.find?]
          have : (keyOf it == k) = false := by simp [hk]
          rw [this]
    · simp only [dedupAux, hit, if_false]
      by_cases hk : keyOf it = k
      · subst hk
        have hks : keyOf it ∉ seen := hit
        simp only [List.filter, beq_self_eq_true, if_true, hit, if_false]
        rw [ih (keyOf it :: seen) (keyOf it)]
        simp [List.find?]
      · have hbeq : (keyOf it == k) = false := by simp [hk]
        simp only [List.filter, hbeq]
        rw [ih (keyOf it :: seen) k]
        have hmem : (k ∈ keyOf it :: seen) ↔ k ∈ seen := by
          simp [List.mem_cons, Ne.symm hk, eq_comm, hk]
        by_cases hks : k ∈ seen
        · simp [hks, hmem, List.find?, hbeq]
        · simp only [List.find?, hbeq]
          rw [if_neg (by simp [hmem, hks]), if_neg hks]

theorem dedup_mem_of_mem {it : Item} {l : List Item} (h : it ∈ dedup l) : it ∈ l := by
  have := dedupLoop_eq_aux l [] []
  simp only [dedup] at h
  rw [this, List.nil_append] at h
  exact (dedupAux_sublist l []).mem h

/-- Shared characterisation of `dedup`: order-preserving subsequence,
and per key exactly the first occurrence. -/
theorem dedup_spec (l : List Item) :
    (dedup l).Sublist l ∧
    ∀ k : String × String,
      (dedup l).filter (fun x => keyOf x == k) =
        (l.find? (fun x => keyOf x == k)).toList := by
  have heq : dedup l = dedupAux [] l := by
    simp [dedup, dedupLoop_eq_aux l [] []]
  constructor
  · rw [heq]; exact dedupAux_sublist l []
  · intro k
    rw [heq, dedupAux_filter l [] k]
    simp

/-- C5: the dedup step keeps an order-preserving subsequence of its
input, and for every (title, source) key the output contains exactly
the first input item with that key (nothing for keys that do not
occur). -/
theorem dedup_first_wins (l : List Item) :
    (dedup l).Sublist l ∧
    ∀ k : String × String,
      (dedup l).filter (fun x => keyOf x == k) =
        (l.find? (fun x => keyOf x == k)).toList :=
  dedup_spec l

/-! ## Claim C1: ordering of the aggregation result -/

/-- Adjacent-pairs check for "time strings in lexicographically
descending order". -/
def sortedDescB : List String → Bool
  | [] => true
  | [_] => true
  | a :: b :: r => strGeB a b && sortedDescB (b :: r)

/-- A concrete network oracle: the first configured feed returns two
entries on the target day, timestamped 08:00 and 09:00 in feed order;
every other fetch fails. -/
def parseC1 : String → Except Unit Feed := fun url =>
  if url = "https://www.challenge.ma/feed" then
    .ok ⟨some "Challenge", [
      ⟨some "A", some "l1", some "Un texte.", none, some (some 480), none, none⟩,
      ⟨some "B", some "l2", some "Autre texte.", none, some (some 540), none, none⟩]⟩
  else .error ()

/-- C1 counterexample: this run of `fetch_news_for_day` returns the
08:00 item before the 09:00 item, so the result is not sorted by
time-of-day string in descending order. -/
theorem fetch_news_not_time_sorted :
    (fetch_news_for_day parseC1 (.error ()) (.error ()) ⟨0, 60⟩ 0).map Item.time =
      ["08:00", "09:00"] ∧
    sortedDescB ((fetch_news_for_day parseC1 (.error ()) (.error ()) ⟨0, 60⟩ 0).map
      Item.time) = false := by
  constructor
  · decide
  · decide

/-- C1 amended: `fetch_news_for_day` applies no sort at all; its result
is the order-preserving subsequence of the concatenated adapter
contributions (feed items in configured feed order, then the two HTML
adapters' items) obtained by first-wins deduplication. -/
theorem fetch_news_for_day_order (parse : String → Except Unit Feed)
    (bpage : Except Unit (List BArticle)) (lpage : Except Unit (List LArticle))
    (now : AwareDT) (target_day : Int) :
    (fetch_news_for_day parse bpage lpage now target_day).Sublist
      (allCandidates parse bpage lpage now target_day) ∧
    ∀ k : String × String,
      (fetch_news_for_day parse bpage lpage now target_day).filter
          (fun x => keyOf x == k) =
        ((allCandidates parse bpage lpage now target_day).find?
          (fun x => keyOf x == k)).toList :=
  dedup_spec (allCandidates parse bpage lpage now target_day)

/-! ## Claim C10: shape of the time field -/

theorem strftimeHM_shape (dt : AwareDT) :
    ∃ h m, h < 24 ∧ m < 60 ∧ strftimeHM dt = twoDigit h ++ ":" ++ twoDigit m := by
  have h0 : (0 : Int) ≤ dt.wall.emod 1440 := Int.emod_nonneg _ (by norm_num)
  have h1 : dt.wall.emod 1440 < 1440 := Int.emod_lt_of_pos _ (by norm_num)
  have h2 : (dt.wall.emod 1440).toNat < 1440 := by omega
  refine ⟨(dt.wall.emod 1440).toNat / 60, (dt.wall.emod 1440).toNat % 60, ?_, ?_, rfl⟩
  · omega
  · omega

theorem entryToItem_time {st url : String} {now : AwareDT} {t : Int} {e : Entry}
    {it : Item} (h : entryToItem st url now t e = some it) :
    it.time = strftimeHM (resolveDt now e) := by
  simp only [entryToItem] at h
  split at h
  · exact absurd h (by simp)
  · split at h
    · exact absurd h (by simp)
    · injection h with h
      subst h
      rfl

theorem bLoop_mem {it : Item} (arts : List BArticle) :
    ∀ acc, it ∈ bLoop acc arts → it ∈ acc ∨ it.time = "--:--" := by
  induction arts with
  | nil => intro acc h; exact Or.inl h
  | cons a rest ih =>
    intro acc h
    obtain ⟨h3, p⟩ := a
    cases h3 with
    | none =>
      simp only [bLoop] at h
      exact ih acc h
    | some hd =>
      obtain ⟨tx, anch⟩ := hd
      cases anch with
      | none =>
        simp only [bLoop] at h
        exact Or.inl h
      | some href =>
        simp only [bLoop] at h
        rcases ih _ h with hmem | htime
        · rcases List.mem_append.mp hmem with hmem | hmem
          · exact Or.inl hmem
          · right
            rcases List.mem_singleton.mp hmem with rfl
            rfl
        · exact Or.inr htime

theorem lItem_time {a : LArticle} {it : Item} (h : lItem a = some it) :
    it.time = "--:--" := by
  unfold lItem at h
  cases hh : a.h2 <|> a.h3 with
  | none => rw [hh] at h; exact absurd h (by simp)
  | some hd =>
    rw [hh] at h
    injection h with h
    subst h
    rfl

/-- C10: every item returned by `fetch_news_for_day` carries either the
HTML adapters' sentinel time "--:--" or a zero-padded 24-hour "HH:MM"
string; no other time value occurs. -/
theorem fetch_news_time_field (parse : String → Except Unit Feed)
    (bpage : Except Unit (List BArticle)) (lpage : Except Unit (List LArticle))
    (now : AwareDT) (target_day : Int) :
    ∀ it ∈ fetch_news_for_day parse bpage lpage now target_day,
      it.time = "--:--" ∨
      ∃ h m, h < 24 ∧ m < 60 ∧ it.time = twoDigit h ++ ":" ++ twoDigit m := by
  intro it hmem
  have hcand : it ∈ allCandidates parse bpage lpage now target_day :=
    dedup_mem_of_mem hmem
  unfold allCandidates at hcand
  rcases List.mem_append.mp hcand with hcand | hlp
  · rcases List.mem_append.mp hcand with hfeed | hbp
    · unfold feedItems at hfeed
      rcases List.mem_flatMap.mp hfeed with ⟨url, _, hurl⟩
      cases hp : parse url with
      | error e => rw [hp] at hurl; exact absurd hurl (by simp)
      | ok feed =>
        rw [hp] at hurl
        rcases List.mem_filterMap.mp hurl with ⟨e, _, hsome⟩
        right
        rw [entryToItem_time hsome]
        exact strftimeHM_shape _
    · unfold fetch_boursenews_html at hbp
      cases bpage with
      | error e => exact absurd hbp (by simp)
      | ok arts =>
        rcases bLoop_mem arts [] hbp with habs | htime
        · exact absurd habs (by simp)
        · exact Or.inl htime
  · unfold fetch_leboursier_html at hlp
    cases lpage with
    | error e => exact absurd hlp (by simp)
    | ok arts =>
      rcases List.mem_filterMap.mp hlp with ⟨a, _, hsome⟩
      exact Or.inl (lItem_time hsome)

/-- C10 witness: the theorem applied to the 08:00 item of the concrete
run used for C1. -/
theorem fetch_news_time_field_witness :
    (⟨"Challenge", "A", "Un texte.", "08:00", "l1"⟩ : Item) ∈
      fetch_news_for_day parseC1 (.error ()) (.error ()) ⟨0, 60⟩ 0 ∧
    ((⟨"Challenge", "A", "Un texte.", "08:00", "l1"⟩ : Item).time = "--:--" ∨
      ∃ h m, h < 24 ∧ m < 60 ∧
        (⟨"Challenge", "A", "Un texte.", "08:00", "l1"⟩ : Item).time =
          twoDigit h ++ ":" ++ twoDigit m) :=
  ⟨by decide,
    fetch_news_time_field parseC1 (.error ()) (.error ()) ⟨0, 60⟩ 0
      ⟨"Challenge", "A", "Un texte.", "08:00", "l1"⟩ (by decide)⟩

/-! ## Claim C4: HTML adapter failure policy -/

/-- The item a single boursenews article yields when its processing
does not raise (`none` for a skipped heading-less article). -/
def bItemOf (a : BArticle) : Option Item :=
  match a.h3 with
  | none => none
  | some h =>
    match h.anchor with
    | none => none
    | some href =>
      some ⟨"Boursenews", clean_html h.text,
        (match a.p with | some p => clean_html p | none => ""),
        "--:--", href.getD ""⟩

theorem bLoop_eq (arts : List BArticle) :
    ∀ acc, bLoop acc arts =
      acc ++ (arts.takeWhile (fun a => !bRaises a)).filterMap bItemOf := by
  induction arts with
  | nil => intro acc; simp [bLoop]
  | cons a rest ih =>
    intro acc
    obtain ⟨h3, p⟩ := a
    cases h3 with
    | none =>
      simp only [bLoop, ih]
      have h1 : bRaises ⟨none, p⟩ = false := rfl
      have h2 : bItemOf ⟨none, p⟩ = none := rfl
      simp [List.takeWhile, h1, h2, List.filterMap]
    | some hd =>
      obtain ⟨tx, anch⟩ := hd
      cases anch with
      | none =>
        have h1 : bRaises ⟨some ⟨tx, none⟩, p⟩ = true := rfl
        simp only [bLoop]
        simp [List.takeWhile, h1]
      | some href =>
        have h1 : bRaises ⟨some ⟨tx, some href⟩, p⟩ = false := rfl
        simp only [bLoop, ih]
        simp [List.takeWhile, h1, List.filterMap, bItemOf]

/-- C4 amended: when retrieval or the initial document parse of an HTML
adapter raises, the adapter returns the empty sequence; an exception
raised while extracting articles (possible in `fetch_boursenews_html`
when a heading has no anchor) is also absorbed, but the adapter then
returns the items accumulated before the raising article rather than
the empty sequence. In every case no exception reaches the caller (the
adapters are total functions of the fetched page). -/
theorem html_adapter_failure_policy :
    (∀ e : Unit, fetch_boursenews_html (.error e) = [] ∧
      fetch_leboursier_html (.error e) = []) ∧
    (∀ arts, fetch_boursenews_html (.ok arts) =
      (arts.takeWhile (fun a => !bRaises a)).filterMap bItemOf) ∧
    (∀ arts, fetch_leboursier_html (.ok arts) = arts.filterMap lItem) := by
  refine ⟨fun e => ⟨rfl, rfl⟩, fun arts => ?_, fun arts => rfl⟩
  show bLoop [] arts = _
  rw [bLoop_eq arts []]
  rfl

/-- C4 counterexample: a page whose first article is well-formed and
whose second article has a heading without an anchor makes the
extraction loop of `fetch_boursenews_html` raise, yet the adapter
returns the one already-extracted item, not the empty sequence. -/
theorem boursenews_partial_on_raise :
    bRaised [⟨some ⟨"T1", some (some "u1")⟩, some "d1"⟩, ⟨some ⟨"T2", none⟩, none⟩] = true ∧
    fetch_boursenews_html (.ok
        [⟨some ⟨"T1", some (some "u1")⟩, some "d1"⟩, ⟨some ⟨"T2", none⟩, none⟩]) =
      [⟨"Boursenews", "T1", "d1", "--:--", "u1"⟩] ∧
    fetch_boursenews_html (.ok
        [⟨some ⟨"T1", some (some "u1")⟩, some "d1"⟩, ⟨some ⟨"T2", none⟩, none⟩]) ≠ [] := by
  refine ⟨by decide, by decide, by decide⟩

/-! ## Claim C6: the day filter -/

/-- The local wall time 2024-03-05T23:59 carried by the fixed locale
timezone (UTC+1), as an aware datetime. -/
def c6dt : AwareDT := ⟨daysFromCivil 2024 3 5 * 1440 + 23 * 60 + 59, TIMEZONE_ofs⟩

/-- C6: `same_day` keeps a timestamp for a target day exactly when the
timestamp's calendar date after conversion to the fixed locale
timezone equals the target day; concretely, local 2024-03-05T23:59 is
kept for 2024-03-05 and excluded for 2024-03-06, while its UTC
calendar day before conversion is 2024-03-05. -/
theorem same_day_local_date :
    (∀ (dt : AwareDT) (target_day : Int),
      same_day dt target_day = true ↔ localCalendarDate dt = target_day) ∧
    same_day c6dt (daysFromCivil 2024 3 5) = true ∧
    same_day c6dt (daysFromCivil 2024 3 6) = false ∧
    utcCalendarDate c6dt = daysFromCivil 2024 3 5 := by
  refine ⟨fun dt target_day => ?_, by decide, by decide, by decide⟩
  simp [same_day, localCalendarDate]

/-! ## Claim C9: timestamp field priority -/

theorem timeLoop_eq_findSome (fs : List (Option (Option Int))) :
    timeLoop none fs = List.findSome? Option.join fs := by
  induction fs with
  | nil => rfl
  | cons f fs ih =>
    cases f with
    | none => simpa [timeLoop, List.findSome?, Option.join] using ih
    | some v =>
      cases v with
      | none => simpa [timeLoop, List.findSome?, Option.join] using ih
      | some w => simp [timeLoop, List.findSome?, Option.join]

/-- C9: `parse_entry_datetime` returns the first present non-null
timestamp among published, updated, created (in that order) with the
fixed locale timezone attached, and `None` when no such field exists;
the aggregation step then substitutes the current instant via
`resolveDt`. -/
theorem parse_entry_datetime_priority (e : Entry) (now : AwareDT) :
    parse_entry_datetime e =
      (List.findSome? Option.join
        [e.published_parsed, e.updated_parsed, e.created_parsed]).map
        (fun w => (⟨w, TIMEZONE_ofs⟩ : AwareDT)) ∧
    resolveDt now e =
      ((List.findSome? Option.join
        [e.published_parsed, e.updated_parsed, e.created_parsed]).map
        (fun w => (⟨w, TIMEZONE_ofs⟩ : AwareDT))).getD now := by
  have h : parse_entry_datetime e =
      (List.findSome? Option.join
        [e.published_parsed, e.updated_parsed, e.created_parsed]).map
        (fun w => (⟨w, TIMEZONE_ofs⟩ : AwareDT)) := by
    unfold parse_entry_datetime
    rw [timeLoop_eq_findSome]
  exact ⟨h, by rw [resolveDt, h]⟩

/-! ## Claim C2: the relevance filter and uppercase keywords -/

/-- C2: the vocabulary lists "PIB", and "Le PIB" contains it, yet the
filter compares keywords case-sensitively against the lower-cased
haystack, so the entry is dropped by the per-entry pipeline of
`fetch_news_for_day` (here via a filtered general-interest source);
a keyword that survives lower-casing ("bourse") does match. -/
theorem econ_keyword_case_bug :
    "PIB" ∈ ECON_KEYWORDS ∧
    substrB "PIB" "Le PIB" = true ∧
    anyKeyword (toLowerStr ("Le PIB" ++ " " ++ "")) = false ∧
    anyKeyword (toLowerStr ("La Bourse de Casablanca en hausse" ++ " " ++ "")) = true ∧
    filteredDomain "https://lematin.ma/rss" = true ∧
    entryToItem "Le Matin" "https://lematin.ma/rss" ⟨0, 60⟩ 0
      ⟨some "Le PIB", some "l", some "", none, some (some 480), none, none⟩ = none := by
  refine ⟨by decide, by decide, by decide, by decide, by decide, by decide⟩

/-! ## Claim C7: clean_html and whitespace -/

/-- No two adjacent whitespace characters: every maximal whitespace run
has length one. -/
def wsCollapsedB : List Char → Bool
  | [] => true
  | [_] => true
  | a :: b :: r => !(a.isWhitespace && b.isWhitespace) && wsCollapsedB (b :: r)

/-- Neither the first nor the last character is whitespace. -/
def noEdgeWsB (s : String) : Bool :=
  (match s.data.head? with | some c => !c.isWhitespace | none => true) &&
  (match s.data.getLast? with | some c => !c.isWhitespace | none => true)

/-- C7 counterexample: on input "a  b" (a single text chunk with an
interior double space and no markup) `clean_html` keeps the double
space, so whitespace runs are not collapsed to single spaces. -/
theorem clean_html_keeps_inner_whitespace :
    clean_html "a  b" = "a  b" ∧ wsCollapsedB (clean_html "a  b").data = false := by
  refine ⟨by decide, by decide⟩

theorem dropWhile_head_not {p : Char → Bool} (cs : List Char) :
    ∀ c, (cs.dropWhile p).head? = some c → p c = false := by
  induction cs with
  | nil => intro c h; simp [List.dropWhile] at h
  | cons a as ih =>
    intro c h
    by_cases hp : p a
    · rw [List.dropWhile_cons_of_pos hp] at h
      exact ih c h
    · rw [List.dropWhile_cons_of_neg hp] at h
      rcases Option.some.inj h with rfl
      exact Bool.eq_false_iff.mpr hp

theorem dropWhile_getLast {p : Char → Bool} (cs : List Char) {c : Char}
    (h : (cs.dropWhile p).getLast? = some c) : cs.getLast? = some c := by
  rcases List.dropWhile_suffix (l := cs) p with ⟨t, ht⟩
  have hne : cs.dropWhile p ≠ [] := by
    intro habs
    rw [habs] at h
    simp at h
  rw [← ht, List.getLast?_append, h]
  rfl

theorem stripChars_head {cs : List Char} {c : Char}
    (h : (stripChars cs).head? = some c) : ¬c.isWhitespace := by
  unfold stripChars at h
  rw [List.head?_reverse] at h
  have h2 := dropWhile_getLast _ h
  rw [List.getLast?_reverse] at h2
  have := dropWhile_head_not (p := Char.isWhitespace) cs c h2
  simp [this]

theorem stripChars_getLast {cs : List Char} {c : Char}
    (h : (stripChars cs).getLast? = some c) : ¬c.isWhitespace := by
  unfold stripChars at h
  rw [List.getLast?_reverse] at h
  have := dropWhile_head_not (p := Char.isWhitespace) _ c h
  simp [this]

theorem joinSep_head (x : String) (ts : List String) (hx : x.data ≠ []) :
    (joinSep " " (x :: ts)).data.head? = x.data.head? := by
  cases ts with
  | nil => rfl
  | cons y ts' =>
    show (x ++ " " ++ joinSep " " (y :: ts')).data.head? = _
    rw [String.data_append, String.data_append, List.append_assoc, List.head?_append]
    cases hxd : x.data with
    | nil => exact absurd hxd hx
    | cons a as => rfl

theorem joinSep_getLast (ts : List String) :
    ∀ x : String, (∀ w ∈ x :: ts, w ≠ "") →
      ∃ p ∈ x :: ts, (joinSep " " (x :: ts)).data.getLast? = p.data.getLast? := by
  induction ts with
  | nil =>
    intro x _
    exact ⟨x, List.mem_cons_self _ _, rfl⟩
  | cons y ts' ih =>
    intro x hne
    have hyd : (joinSep " " (y :: ts')).data ≠ [] := by
      intro habs
      have hy : y.data ≠ [] := by
        intro h'
        exact hne y (List.mem_cons_of_mem _ (List.mem_cons_self _ _))
          (by rw [← string_mk_data y, h'])
      have := joinSep_head y ts' hy
      rw [habs] at this
      cases hyy : y.data with
      | nil => exact hy hyy
      | cons a as => rw [hyy] at this; simp at this
    have hstep : (joinSep " " (x :: y :: ts')).data.getLast? =
        (joinSep " " (y :: ts')).data.getLast? := by
      show (x ++ " " ++ joinSep " " (y :: ts')).data.getLast? = _
      rw [String.data_append, List.getLast?_append]
      cases hj : (joinSep " " (y :: ts')).data with
      | nil => exact absurd hj hyd
      | cons a as =>
        rw [← hj]
        have : (joinSep " " (y :: ts')).data.getLast?.isSome := by
          rw [hj]
          simp [List.getLast?_isSome]
        rcases Option.isSome_iff_exists.mp this with ⟨v, hv⟩
        rw [hv]
        rfl
    rcases ih y (fun w hw => hne w (List.mem_cons_of_mem _ hw)) with ⟨p, hp, hlast⟩
    exact ⟨p, List.mem_cons_of_mem _ hp, by rw [hstep, hlast]⟩

theorem clean_html_trimmed (s : String) : noEdgeWsB (clean_html s) = true := by
  by_cases hs : s = ""
  · subst hs; rfl
  · unfold clean_html
    simp only [hs, if_false]
    have hmem : ∀ w ∈ ((htmlSegments s).map stripStr).filter (fun p => p ≠ ""),
        w ≠ "" ∧ ∃ cs, w.data = stripChars cs := by
      intro w hw
      constructor
      · have := List.of_mem_filter hw
        simpa using this
      · have hw2 := List.mem_of_mem_filter hw
        rcases List.mem_map.mp hw2 with ⟨seg, _, rfl⟩
        exact ⟨seg.data, rfl⟩
    cases hp : ((htmlSegments s).map stripStr).filter (fun p => p ≠ "") with
    | nil => rfl
    | cons x rest =>
      have hxne : x ≠ "" := (hmem x (hp ▸ List.mem_cons_self _ _)).1
      have hxd : x.data ≠ [] := fun habs => hxne (by rw [← string_mk_data x, habs])
      have hhead := joinSep_head x rest hxd
      have hlast := joinSep_getLast rest x (fun w hw => (hmem w (hp ▸ hw)).1)
      unfold noEdgeWsB
      rw [Bool.and_eq_true]
      constructor
      · cases hh : (joinSep " " (x :: rest)).data.head? with
        | none => rfl
        | some c =>
          rcases (hmem x (hp ▸ List.mem_cons_self _ _)).2 with ⟨cs, hcs⟩
          have : (stripChars cs).head? = some c := by
            rw [← hcs, ← hhead, hh]
          simpa using stripChars_head this
      · cases hl : (joinSep " " (x :: rest)).data.getLast? with
        | none => rfl
        | some c =>
          rcases hlast with ⟨p, hpmem, heq⟩
          rcases (hmem p (hp ▸ hpmem)).2 with ⟨cs, hcs⟩
          have : (stripChars cs).getLast? = some c := by
            rw [← hcs, ← heq, hl]
          simpa using stripChars_getLast this

/-- C7 amended: `clean_html` removes markup tags, strips each text
chunk and joins the surviving chunks with single spaces, so its output
never has leading or trailing whitespace and empty input yields the
empty string; whitespace runs interior to a single text chunk are kept
as-is (see the counterexample). -/
theorem clean_html_contract :
    clean_html "" = "" ∧
    (∀ s, noEdgeWsB (clean_html s) = true) ∧
    clean_html "<p>Hello <b>world</b></p>" = "Hello world" :=
  ⟨rfl, clean_html_trimmed, by decide⟩

/-! ## Claim C8: CSV round trip -/

/-- A character that needs no quoting inside a CSV field. -/
def plainCharB (c : Char) : Bool := !(c = ',' || c = '"' || c = '\r' || c = '\n')

theorem csvSteps_plain (cs : List Char) :
    ∀ (rows : List (List String)) (curRow : List String) (cur : List Char),
      (∀ c ∈ cs, plainCharB c) →
      List.foldl csvStep ⟨rows, curRow, cur, .norm⟩ cs = ⟨rows, curRow, cur ++ cs, .norm⟩ := by
  induction cs with
  | nil => intro rows curRow cur _; simp
  | cons c cs ih =>
    intro rows curRow cur hplain
    have hc := hplain c (List.mem_cons_self _ _)
    have h1 : ¬c = ',' := by simp [plainCharB] at hc; tauto
    have h2 : ¬c = '"' := by simp [plainCharB] at hc; tauto
    have h3 : ¬c = '\r' := by simp [plainCharB] at hc; tauto
    have h4 : ¬c = '\n' := by simp [plainCharB] at hc; tauto
    have hstep : csvStep ⟨rows, curRow, cur, .norm⟩ c =
        ⟨rows, curRow, cur ++ [c], .norm⟩ := by
      simp [csvStep, h1, h2, h3, h4]
    rw [List.foldl_cons, hstep, ih rows curRow (cur ++ [c])
      (fun a ha => hplain a (List.mem_cons_of_mem _ ha))]
    simp

theorem csvSteps_quoted (cs : List Char) :
    ∀ (rows : List (List String)) (curRow : List String) (cur : List Char),
      List.foldl csvStep ⟨rows, curRow, cur, .quoted⟩ (escapeQuotes cs) =
        ⟨rows, curRow, cur ++ cs, .quoted⟩ := by
  induction cs with
  | nil => intro rows curRow cur; simp [escapeQuotes]
  | cons c cs ih =>
    intro rows curRow cur
    by_cases hq : c = '"'
    · subst hq
      have hesc : escapeQuotes ('"' :: cs) = '"' :: '"' :: escapeQuotes cs := by
        simp [escapeQuotes]
      rw [hesc, List.foldl_cons, List.foldl_cons]
      have hstep1 : csvStep ⟨rows, curRow, cur, .quoted⟩ '"' =
          ⟨rows, curRow, cur, .quoteSeen⟩ := by simp [csvStep]
      have hstep2 : csvStep ⟨rows, curRow, cur, .quoteSeen⟩ '"' =
          ⟨rows, curRow, cur ++ ['"'], .quoted⟩ := by simp [csvStep]
      rw [hstep1, hstep2, ih]
      simp
    · have hesc : escapeQuotes (c :: cs) = c :: escapeQuotes cs := by
        simp [escapeQuotes, hq]
      rw [hesc, List.foldl_cons]
      have hstep : csvStep ⟨rows, curRow, cur, .quoted⟩ c =
          ⟨rows, curRow, cur ++ [c], .quoted⟩ := by simp [csvStep, hq]
      rw [hstep, ih]
      simp

theorem encodeField_data_quoted {f : String} (h : needsQuote f = true) :
    (encodeField f).data = '"' :: escapeQuotes f.data ++ ['"'] := by
  unfold encodeField
  rw [if_pos h, String.data_append, String.data_append]
  rfl

theorem csvSteps_field_comma (f : String) (rows : List (List String))
    (curRow : List String) (rest : List Char) :
    List.foldl csvStep ⟨rows, curRow, [], .norm⟩ ((encodeField f).data ++ ',' :: rest) =
      List.foldl csvStep ⟨rows, curRow ++ [f], [], .norm⟩ rest := by
  by_cases hq : needsQuote f
  · rw [encodeField_data_quoted hq]
    have hflat : ('"' :: escapeQuotes f.data ++ ['"']) ++ ',' :: rest =
        '"' :: (escapeQuotes f.data ++ ('"' :: ',' :: rest)) := by simp
    rw [hflat, List.foldl_cons]
    have hstep0 : csvStep ⟨rows, curRow, [], .norm⟩ '"' = ⟨rows, curRow, [], .quoted⟩ := by
      simp [csvStep]
    rw [hstep0, List.foldl_append, csvSteps_quoted, List.foldl_cons, List.foldl_cons]
    have h1 : csvStep ⟨rows, curRow, [] ++ f.data, .quoted⟩ '"' =
        ⟨rows, curRow, [] ++ f.data, .quoteSeen⟩ := by simp [csvStep]
    have h2 : csvStep ⟨rows, curRow, [] ++ f.data, .quoteSeen⟩ ',' =
        ⟨rows, curRow ++ [String.mk ([] ++ f.data)], [], .norm⟩ := by simp [csvStep]
    rw [h1, h2]
    have h3 : String.mk ([] ++ f.data) = f := string_mk_data f
    rw [h3]
  · have hq' : needsQuote f = false := by simpa using hq
    have hplain : ∀ c ∈ f.data, plainCharB c := by
      intro c hc
      have h1 := (List.any_eq_false.mp hq') c hc
      simp only [plainCharB]
      rw [Bool.eq_false_iff.mpr h1]
      rfl
    have henc : encodeField f = f := by
      unfold encodeField
      rw [if_neg (by simp [hq'])]
    rw [henc, List.foldl_append, csvSteps_plain f.data rows curRow [] hplain,
      List.foldl_cons]
    have hstep : csvStep ⟨rows, curRow, [] ++ f.data, .norm⟩ ',' =
        ⟨rows, curRow ++ [String.mk ([] ++ f.data)], [], .norm⟩ := by
      simp [csvStep]
    have hmk : String.mk ([] ++ f.data) = f := string_mk_data f
    rw [hstep, hmk]

theorem csvSteps_field_cr (f : String) (rows : List (List String))
    (curRow : List String) (rest : List Char) :
    List.foldl csvStep ⟨rows, curRow, [], .norm⟩
        ((encodeField f).data ++ '\r' :: '\n' :: rest) =
      List.foldl csvStep ⟨rows ++ [curRow ++ [f]], [], [], .norm⟩ rest := by
  by_cases hq : needsQuote f
  · rw [encodeField_data_quoted hq]
    have hflat : ('"' :: escapeQuotes f.data ++ ['"']) ++ '\r' :: '\n' :: rest =
        '"' :: (escapeQuotes f.data ++ ('"' :: '\r' :: '\n' :: rest)) := by simp
    rw [hflat, List.foldl_cons]
    have hstep0 : csvStep ⟨rows, curRow, [], .norm⟩ '"' = ⟨rows, curRow, [], .quoted⟩ := by
      simp [csvStep]
    rw [hstep0, List.foldl_append, csvSteps_quoted, List.foldl_cons, List.foldl_cons,
      List.foldl_cons]
    have h1 : csvStep ⟨rows, curRow, [] ++ f.data, .quoted⟩ '"' =
        ⟨rows, curRow, [] ++ f.data, .quoteSeen⟩ := by simp [csvStep]
    have h2 : csvStep ⟨rows, curRow, [] ++ f.data, .quoteSeen⟩ '\r' =
        ⟨rows, curRow ++ [String.mk ([] ++ f.data)], [], .cr⟩ := by simp [csvStep]
    have h3 : csvStep ⟨rows, curRow ++ [String.mk ([] ++ f.data)], [], .cr⟩ '\n' =
        ⟨rows ++ [curRow ++ [String.mk ([] ++ f.data)]], [], [], .norm⟩ := by simp [csvStep]
    have hmk : String.mk ([] ++ f.data) = f := string_mk_data f
    rw [h1, h2, h3, hmk]
  · have hq' : needsQuote f = false := by simpa using hq
    have hplain : ∀ c ∈ f.data, plainCharB c := by
      intro c hc
      have h1 := (List.any_eq_false.mp hq') c hc
      simp only [plainCharB]
      rw [Bool.eq_false_iff.mpr h1]
      rfl
    have henc : encodeField f = f := by
      unfold encodeField
      rw [if_neg (by simp [hq'])]
    rw [henc, List.foldl_append, csvSteps_plain f.data rows curRow [] hplain,
      List.foldl_cons, List.foldl_cons]
    have h1 : csvStep ⟨rows, curRow, [] ++ f.data, .norm⟩ '\r' =
        ⟨rows, curRow ++ [String.mk ([] ++ f.data)], [], .cr⟩ := by
      simp [csvStep]
    have h2 : csvStep ⟨rows, curRow ++ [String.mk ([] ++ f.data)], [], .cr⟩ '\n' =
        ⟨rows ++ [curRow ++ [String.mk ([] ++ f.data)]], [], [], .norm⟩ := by simp [csvStep]
    have hmk : String.mk ([] ++ f.data) = f := string_mk_data f
    rw [h1, h2, hmk]

theorem csvSteps_row (fs : List String) (hne : fs ≠ []) :
    ∀ (rows : List (List String)) (curRow : List String) (rest : List Char),
      List.foldl csvStep ⟨rows, curRow, [], .norm⟩ ((encodeRow fs).data ++ rest) =
        List.foldl csvStep ⟨rows ++ [curRow ++ fs], [], [], .norm⟩ rest := by
  induction fs with
  | nil => exact absurd rfl hne
  | cons f fs' ih =>
    intro rows curRow rest
    cases fs' with
    | nil =>
      have hdata : (encodeRow [f]).data = (encodeField f).data ++ '\r' :: '\n' :: [] := by
        show (joinSep "," [encodeField f] ++ "\r\n").data = _
        rw [String.data_append]
        rfl
      rw [hdata, List.append_assoc]
      have := csvSteps_field_cr f rows curRow rest
      simpa using this
    | cons f2 fs'' =>
      have hdata : (encodeRow (f :: f2 :: fs'')).data ++ rest =
          (encodeField f).data ++ ',' :: ((encodeRow (f2 :: fs'')).data ++ rest) := by
        show ((encodeField f ++ "," ++
          joinSep "," (List.map encodeField (f2 :: fs''))) ++ "\r\n").data ++ rest = _
        simp only [encodeRow, String.data_append, List.append_assoc]
        rfl
      rw [hdata]
      rw [csvSteps_field_comma f rows curRow ((encodeRow (f2 :: fs'')).data ++ rest),
        ih (by simp) rows (curRow ++ [f]) rest]
      simp

theorem csvSteps_rows (rs : List Item) :
    ∀ acc : List (List String),
      List.foldl csvStep ⟨acc, [], [], .norm⟩
        (strConcat (rs.map (fun r => encodeRow (itemFields r)))).data =
      (⟨acc ++ rs.map itemFields, [], [], .norm⟩ : CsvState) := by
  induction rs with
  | nil => intro acc; simp [strConcat]
  | cons r rs' ih =>
    intro acc
    have hdata : (strConcat ((r :: rs').map (fun x => encodeRow (itemFields x)))).data =
        (encodeRow (itemFields r)).data ++
          (strConcat (rs'.map (fun x => encodeRow (itemFields x)))).data := by
      show (encodeRow (itemFields r) ++ _).data = _
      rw [String.data_append]
    rw [hdata, csvSteps_row (itemFields r) (by simp [itemFields]) acc []
      (strConcat (rs'.map (fun x => encodeRow (itemFields x)))).data]
    rw [ih (acc ++ [[] ++ itemFields r])]
    simp

/-- C8: the CSV export writes the header row followed by one row per
item in the fixed column order source, title, summary, time, link,
with standard quoting; decoding it with a standard CSV decoder
recovers every field of every item exactly. Reproducibility is
inherent: `export_csv` is a pure function of the item sequence. -/
theorem export_csv_roundtrip (rows : List Item) :
    decodeCsv (export_csv rows) = CSV_HEADER :: rows.map itemFields := by
  unfold decodeCsv export_csv
  rw [String.data_append]
  show csvFinish (List.foldl csvStep ⟨[], [], [], .norm⟩ _) = _
  rw [csvSteps_row CSV_HEADER (by simp [CSV_HEADER]) [] []
    (strConcat (rows.map (fun r => encodeRow (itemFields r)))).data]
  rw [csvSteps_rows rows ([] ++ [[] ++ CSV_HEADER])]
  simp [csvFinish]

/-- C8 concretely: an item whose summary carries a comma and an
embedded quote round-trips exactly. -/
theorem export_csv_roundtrip_example :
    decodeCsv (export_csv [⟨"s1", "t1", "has, comma and \"quote\"", "08:00", "l1"⟩]) =
      [["source", "title", "summary", "time", "link"],
        ["s1", "t1", "has, comma and \"quote\"", "08:00", "l1"]] := by
  decide

end NewsEco
